import Mathlib

/-!
Verification of the `ripcal` address-range/subnet core (src/iprange.rs and
the range-merging code of src/main.rs).

The Rust code is shallowly embedded: `u32`/`u64` values are `Nat` with
explicit `% 2 ^ 32` where truncation or wrap-around matters, bounded loops
become structural recursion on a fuel argument that is provably never
exhausted on the reachable states, and fallible constructors return
`Except String` mirroring the Rust `Result<_, &'static str>` values.
-/

namespace Ripcal

/-- Loop body of `count_suffix_zero_bits` (src/iprange.rs lines 5-13):
`while (i <= 32) && ((ip & 0x1) == 0x0) { i += 1; ip >>= 1 }; return i`.
The guard admits entry only for `i ≤ 32`, so at most 33 iterations run and
fuel 34 is never exhausted. -/
def cszbAux : Nat → Nat → Nat → Nat
  | 0, i, _ => i
  | fuel + 1, i, ip => if i ≤ 32 ∧ ip % 2 = 0 then cszbAux fuel (i + 1) (ip / 2) else i

/-- `count_suffix_zero_bits(ip: u64) -> u8` from src/iprange.rs lines 5-13
(duplicated at src/main.rs lines 382-390). -/
def count_suffix_zero_bits (ip : Nat) : Nat := cszbAux 34 0 ip

/-- `make_mask(prefix: u8) -> u32` from src/iprange.rs lines 15-25
(duplicated at src/main.rs lines 232-242). -/
def make_mask (p : Nat) : Nat :=
  if p = 0 then 0
  else if p < 32 then (0xffffffff >>> (32 - p)) <<< (32 - p)
  else 0xffffffff

/-- `mask_ipaddr(ip, prefix)` from src/iprange.rs lines 27-29: `ip & make_mask(prefix)`. -/
def mask_ipaddr (ip p : Nat) : Nat := ip &&& make_mask p

/-- Bitwise complement `!x` on `u32`: xor with the all-ones 32-bit word. -/
def not32 (x : Nat) : Nat := 0xffffffff ^^^ x

/-- `struct Ipv4Range { start: Ipv4Addr, end: Ipv4Addr }` (src/iprange.rs lines 31-35).
The Rust field `end` is a Lean keyword and is embedded as `end_`. -/
structure Ipv4Range where
  start : Nat
  end_ : Nat
deriving DecidableEq, Repr

/-- `struct Ipv4Subnet { addr: Ipv4Addr, prefix: u8 }` (src/iprange.rs lines 160-164).
The Rust field `prefix` is embedded as `prefix_len`. -/
structure Ipv4Subnet where
  addr : Nat
  prefix_len : Nat
deriving DecidableEq, Repr

/-- `Ipv4Subnet::start_addr` (src/iprange.rs lines 167-169). -/
def Ipv4Subnet.start_addr (s : Ipv4Subnet) : Nat := mask_ipaddr s.addr s.prefix_len

/-- `Ipv4Subnet::end_addr` (src/iprange.rs lines 170-173):
`mask_ipaddr(addr, prefix) | !make_mask(prefix)`. -/
def Ipv4Subnet.end_addr (s : Ipv4Subnet) : Nat :=
  mask_ipaddr s.addr s.prefix_len ||| not32 (make_mask s.prefix_len)

/-- `Ipv4Range::update_end` (src/iprange.rs lines 56-63); the Rust mutation is
embedded as returning the boolean together with the updated value. -/
def Ipv4Range.update_end (r : Ipv4Range) (e : Nat) : Bool × Ipv4Range :=
  if e < r.start then (false, r) else (true, { start := r.start, end_ := e })

/-- Loop body of `Ipv4Range::get_prefix` (src/iprange.rs lines 65-74):
`for i in 0..32 { if (start >> i) == (end >> i) { return 32 - i } }; return 0`.
Fuel 32 runs the index `i` from 0 to 31 and then falls through to 0,
exactly like the Rust `for` loop. -/
def gpAux : Nat → Nat → Ipv4Range → Nat
  | 0, _, _ => 0
  | fuel + 1, i, r => if r.start >>> i = r.end_ >>> i then 32 - i else gpAux fuel (i + 1) r

/-- `Ipv4Range::get_prefix` (src/iprange.rs lines 65-74, duplicated at
src/main.rs lines 119-128); named `get_prefix_len` here. -/
def Ipv4Range.get_prefix_len (r : Ipv4Range) : Nat := gpAux 32 0 r

/-- `TryFrom<(Ipv4Addr, u8)> for Ipv4Subnet` (src/iprange.rs lines 193-205). -/
def subnet_try_from (a p : Nat) : Except String Ipv4Subnet :=
  if p > 32 then .error "Invalid IP subnet prefix" else .ok { addr := a, prefix_len := p }

/-- `From<&Ipv4Subnet> for Ipv4Range` (src/iprange.rs lines 145-152). -/
def Ipv4Range.from_subnet (s : Ipv4Subnet) : Ipv4Range :=
  { start := s.start_addr, end_ := s.end_addr }

/-- `TryFrom<(Ipv4Addr, Ipv4Addr)> for Ipv4Range` (src/iprange.rs lines 124-136). -/
def range_try_from_pair (s e : Nat) : Except String Ipv4Range :=
  if s > e then .error "Invalid Range" else .ok { start := s, end_ := e }

/-- `TryFrom<(Ipv4Addr, u8)> for Ipv4Range` (src/iprange.rs lines 138-143):
build the subnet, propagate its error, then convert. -/
def range_try_from_subnet (a p : Nat) : Except String Ipv4Range :=
  match subnet_try_from a p with
  | .error msg => .error msg
  | .ok s => .ok (Ipv4Range.from_subnet s)

/-- `From<&Ipv4Range> for Ipv4Subnet` (src/iprange.rs lines 214-221):
the minimal covering subnet `{ addr: range.start, prefix: range.get_prefix() }`. -/
def Ipv4Subnet.from_range (r : Ipv4Range) : Ipv4Subnet :=
  { addr := r.start, prefix_len := r.get_prefix_len }

/-- Inner halving loop of `to_subnets` (src/iprange.rs lines 106-109):
`while (start + diff) > end { diff >>= 1; s -= 1 }`, returning `(diff, s)`.
`s - 1` is `Nat` subtraction; the state `diff = 0 ∧ start > e`, where the Rust
`u8` subtraction would underflow, is proved unreachable (see `to_subnetsChk`).
The caller passes fuel `s + 1`, which is shown sufficient since `diff`
starts at `2 ^ s - 1` and halves each round. -/
def shrinkAux : Nat → Nat → Nat → Nat → Nat → Nat × Nat
  | 0, _, _, diff, s => (diff, s)
  | fuel + 1, st, e, diff, s =>
    if st + diff > e then shrinkAux fuel st e (diff / 2) (s - 1) else (diff, s)

/-- Outer loop of `Ipv4Range::to_subnets` (src/iprange.rs lines 97-114,
duplicated as `ip_range_to_subnets` at src/main.rs lines 392-412), working on
the widened `u64` cursor. Each iteration advances `start` by at least one, so
fuel `e + 2 - start` is never exhausted while `start ≤ e`. -/
def to_subnetsAux : Nat → Nat → Nat → List Ipv4Subnet
  | 0, _, _ => []
  | fuel + 1, st, e =>
    if st ≤ e then
      let s0 := count_suffix_zero_bits st
      let ds := shrinkAux (s0 + 1) st e (2 ^ s0 - 1) s0
      { addr := st % 2 ^ 32, prefix_len := 32 - ds.2 } :: to_subnetsAux fuel (st + ds.1 + 1) e
    else []

/-- `Ipv4Range::to_subnets` (src/iprange.rs lines 97-114). -/
def Ipv4Range.to_subnets (r : Ipv4Range) : List Ipv4Subnet :=
  to_subnetsAux (r.end_ + 2) r.start r.end_

/-- Checked variant of the inner halving loop: `none` whenever the Rust code
would fail, i.e. when `s -= 1` would underflow the `u8` (entering the loop
with `s = 0`) or the fuel bound would be exceeded. -/
def shrinkChk : Nat → Nat → Nat → Nat → Nat → Option (Nat × Nat)
  | 0, _, _, _, _ => none
  | fuel + 1, st, e, diff, s =>
    if st + diff > e then
      if s = 0 then none else shrinkChk fuel st e (diff / 2) (s - 1)
    else some (diff, s)

/-- Checked variant of the decomposition loop: additionally `none` when an
emission step has `s > 32`, where the Rust `32u8 - s` would underflow and
`Ipv4Subnet::try_from((_, 32 - s)).unwrap()` would reject the prefix. -/
def to_subnetsChkAux : Nat → Nat → Nat → Option (List Ipv4Subnet)
  | 0, _, _ => none
  | fuel + 1, st, e =>
    if st ≤ e then
      match shrinkChk (count_suffix_zero_bits st + 1) st e
        (2 ^ count_suffix_zero_bits st - 1) (count_suffix_zero_bits st) with
      | none => none
      | some ds =>
        if ds.2 ≤ 32 then
          Option.map (fun rest => { addr := st % 2 ^ 32, prefix_len := 32 - ds.2 } :: rest)
            (to_subnetsChkAux fuel (st + ds.1 + 1) e)
        else none
    else some []

/-- Checked `Ipv4Range::to_subnets`: `some` exactly when no failing branch is hit. -/
def Ipv4Range.to_subnetsChk (r : Ipv4Range) : Option (List Ipv4Subnet) :=
  to_subnetsChkAux (r.end_ + 2) r.start r.end_

/-- The derived lexicographic order on `Ipv4Range` (`#[derive(PartialOrd, Ord)]`
with fields `start`, `end`, src/main.rs lines 76-80). -/
def range_le (a b : Ipv4Range) : Prop :=
  a.start < b.start ∨ (a.start = b.start ∧ a.end_ ≤ b.end_)

/-- Loop of `merge_ranges` (src/main.rs lines 198-220), with `cur` playing the
role of the write-cursor slot `ranges[j]`. The adjacency test
`start > end + 1` is `u32` arithmetic in Rust, so `end + 1` wraps modulo
`2 ^ 32` when `end = 0xffffffff`; the embedding keeps that wrap. -/
def mergeAux (cur : Ipv4Range) : List Ipv4Range → List Ipv4Range
  | [] => [cur]
  | r :: rs =>
    if (cur.end_ + 1) % 2 ^ 32 < r.start then cur :: mergeAux r rs
    else mergeAux { start := cur.start, end_ := max cur.end_ r.end_ } rs

/-- `merge_ranges(ranges: &mut Vec<Ipv4Range>)` (src/main.rs lines 198-220);
inputs of length below 2 are returned unchanged. -/
def merge_ranges : List Ipv4Range → List Ipv4Range
  | [] => []
  | [r] => [r]
  | r :: rs => mergeAux r rs

/-- `r` covers address `a`: `a` lies in the inclusive interval `[start, end]`. -/
def covers (r : Ipv4Range) (a : Nat) : Prop := r.start ≤ a ∧ a ≤ r.end_

/-- Rust `str::find(char)`: index of the first occurrence. The Rust byte index
and the character index select the same split points, so the string is
embedded as its character list. -/
def find_char (c : Char) : List Char → Option Nat
  | [] => none
  | x :: xs => if x = c then some 0 else (find_char c xs).map (· + 1)

/-- Digit-accumulation loop of Rust `u8::from_str`: every character must be a
decimal digit and the running value may never exceed 255 (the checked
multiply/add of `from_str_radix`). -/
def parse_u8_digits : List Char → Nat → Option Nat
  | [], acc => some acc
  | c :: cs, acc =>
    if c.isDigit then
      let v := acc * 10 + (c.toNat - 48)
      if v ≤ 255 then parse_u8_digits cs v else none
    else none

/-- Rust `u8::from_str`: an optional leading `+`, then one or more decimal
digits whose value fits in `u8`; anything else (including a leading `-`) fails. -/
def parse_u8 (cs : List Char) : Option Nat :=
  match cs with
  | [] => none
  | c :: rest =>
    if c = '+' then if rest.isEmpty then none else parse_u8_digits rest 0
    else parse_u8_digits (c :: rest) 0

/-- Numeric value of a digit string (most significant first). -/
def digits_val (ds : List Char) : Nat := ds.foldl (fun a c => a * 10 + (c.toNat - 48)) 0

/-- One octet of Rust `Ipv4Addr::from_str`: one to three decimal digits, no
leading zero unless the octet is exactly `0`, value at most 255; returns the
value and the unconsumed remainder. -/
def read_octet (cs : List Char) : Option (Nat × List Char) :=
  let ds := cs.takeWhile Char.isDigit
  if ds.length = 0 ∨ 3 < ds.length then none
  else if 1 < ds.length ∧ ds.head? = some '0' then none
  else if 255 < digits_val ds then none
  else some (digits_val ds, cs.dropWhile Char.isDigit)

/-- Consume a literal `.` separator. -/
def expect_dot : List Char → Option (List Char)
  | [] => none
  | c :: rest => if c = '.' then some rest else none

/-- Rust `Ipv4Addr::from_str`: exactly four octets separated by dots, the whole
input consumed; the result is the 32-bit big-endian value. -/
def parse_ipv4 (cs : List Char) : Option Nat := do
  let (a, r1) ← read_octet cs
  let r2 ← expect_dot r1
  let (b, r3) ← read_octet r2
  let r4 ← expect_dot r3
  let (c, r5) ← read_octet r4
  let r6 ← expect_dot r5
  let (d, r7) ← read_octet r6
  if r7.isEmpty then some (((a * 256 + b) * 256 + c) * 256 + d) else none

/-- Rust `str::trim`: strip whitespace from both ends. -/
def rust_trim (cs : List Char) : List Char :=
  ((cs.dropWhile Char.isWhitespace).reverse.dropWhile Char.isWhitespace).reverse

/-- `Ipv4Range::parse_range` (src/iprange.rs lines 76-95): first occurrence of
`/` selects the subnet form (prefix parsed as `u8`, then the address, then
`Ipv4Range::try_from((addr, prefix))`); otherwise the first occurrence of `-`
selects the range form (both sides trimmed and parsed as addresses, then
`Ipv4Range::try_from((start, end))`); otherwise an error. -/
def parse_range (a : List Char) : Except String Ipv4Range :=
  match find_char '/' a with
  | some n =>
    match parse_u8 (a.drop (n + 1)) with
    | none => .error "Invalid IP subnet prefix"
    | some p =>
      match parse_ipv4 (a.take n) with
      | none => .error "Invalid IP address"
      | some addr => range_try_from_subnet addr p
  | none =>
    match find_char '-' a with
    | some n =>
      match parse_ipv4 (rust_trim (a.take n)) with
      | none => .error "Invalid IP address"
      | some s =>
        match parse_ipv4 (rust_trim (a.drop (n + 1))) with
        | none => .error "Invalid IP address"
        | some e => range_try_from_pair s e
    | none => .error "Invalid IP range/subnet"

/-- The failure condition of the subnet form of claim C5: a `/` is present
but the part after it does not parse as an unsigned integer in `0..=32`, or
the part before it is not a dotted quad. -/
def slash_fail (a : List Char) (n : Nat) : Prop :=
  parse_u8 (a.drop (n + 1)) = none ∨
  (∃ p, parse_u8 (a.drop (n + 1)) = some p ∧ 32 < p) ∨
  parse_ipv4 (a.take n) = none

/-- The failure condition of the range form of claim C5: a `-` is present
(split at its first occurrence, both sides trimmed) but either side is not a
dotted quad, or the left address exceeds the right. -/
def dash_fail (a : List Char) (n : Nat) : Prop :=
  parse_ipv4 (rust_trim (a.take n)) = none ∨
  parse_ipv4 (rust_trim (a.drop (n + 1))) = none ∨
  ∃ sv ev, parse_ipv4 (rust_trim (a.take n)) = some sv ∧
    parse_ipv4 (rust_trim (a.drop (n + 1))) = some ev ∧ ev < sv

/-- Claim C5 for one input: `parse_range` errs exactly under the claimed
conditions, and on success the result is the Range built by the
corresponding constructor. -/
def parse_range_spec (a : List Char) : Prop :=
  ((∃ msg, parse_range a = .error msg) ↔
    (find_char '/' a = none ∧ find_char '-' a = none) ∨
    (∃ n, find_char '/' a = some n ∧ slash_fail a n) ∨
    (∃ n, find_char '-' a = some n ∧ dash_fail a n)) ∧
  (∀ r, parse_range a = .ok r →
    (∃ n p addr, find_char '/' a = some n ∧ parse_u8 (a.drop (n + 1)) = some p ∧
      parse_ipv4 (a.take n) = some addr ∧ range_try_from_subnet addr p = .ok r) ∨
    (∃ n sv ev, find_char '-' a = some n ∧
      parse_ipv4 (rust_trim (a.take n)) = some sv ∧
      parse_ipv4 (rust_trim (a.drop (n + 1))) = some ev ∧
      range_try_from_pair sv ev = .ok r))

/-- The partition property of claim C1: the derived ranges of the emitted
subnets exactly tile `[start, end]` (union equality, contiguity of consecutive
blocks, pairwise non-overlap) and the list is sorted by ascending base address. -/
def to_subnets_partition (r : Ipv4Range) : Prop :=
  (∀ a, (r.start ≤ a ∧ a ≤ r.end_) ↔
    ∃ sn ∈ r.to_subnets, sn.start_addr ≤ a ∧ a ≤ sn.end_addr) ∧
  List.Pairwise (fun x y => x.addr < y.addr) r.to_subnets ∧
  List.Chain' (fun x y => y.start_addr = x.end_addr + 1) r.to_subnets ∧
  List.Pairwise (fun x y => x.end_addr < y.start_addr) r.to_subnets

/-- The emitted subnets, read left to right, tile the interval exactly from
`cur` up to `e`: each block starts at the running cursor (both as its stored
base `addr` and as its derived `startAddress`), ends inside the interval, and
the next block resumes right after it; the whole list ends exactly at `e`. -/
def blocks_chain : Nat → Nat → List Ipv4Subnet → Prop
  | cur, e, [] => cur = e + 1
  | cur, e, sn :: rest =>
    sn.addr = cur ∧ sn.start_addr = cur ∧ cur ≤ sn.end_addr ∧ sn.end_addr ≤ e ∧
    blocks_chain (sn.end_addr + 1) e rest

/-- A Range is subnet-aligned: some subnet with a legal prefix length has
exactly this range as its derived `[startAddress, endAddress]` interval. -/
def subnet_aligned (r : Ipv4Range) : Prop :=
  ∃ sn : Ipv4Subnet, sn.prefix_len ≤ 32 ∧ sn.start_addr = r.start ∧ sn.end_addr = r.end_

/-- The characterization of `get_prefix_len` claimed by C9: it returns `32 - i`
for the least shift `i < 32` equating the shifted bounds, 0 when there is no
such shift, and equivalently the longest prefix on which the bounds agree. -/
def get_prefix_spec (r : Ipv4Range) : Prop :=
  (∀ i, i < 32 → r.start >>> i = r.end_ >>> i →
    (∀ j, j < i → r.start >>> j ≠ r.end_ >>> j) → r.get_prefix_len = 32 - i) ∧
  ((∀ i, i < 32 → r.start >>> i ≠ r.end_ >>> i) → r.get_prefix_len = 0) ∧
  (r.get_prefix_len ≤ 32 ∧
    r.start >>> (32 - r.get_prefix_len) = r.end_ >>> (32 - r.get_prefix_len) ∧
    ∀ q, q ≤ 32 → r.start >>> (32 - q) = r.end_ >>> (32 - q) → q ≤ r.get_prefix_len)

example : count_suffix_zero_bits 0 = 33 := by decide
example : count_suffix_zero_bits 8 = 3 := by decide
example : count_suffix_zero_bits 7 = 0 := by decide
example : make_mask 24 = 0xffffff00 := by decide
example : make_mask 0 = 0 := by decide
example : make_mask 32 = 0xffffffff := by decide
example : Ipv4Range.get_prefix_len { start := 2, end_ := 3 } = 31 := by decide
example : Ipv4Range.get_prefix_len { start := 0, end_ := 0xffffffff } = 0 := by decide
example : Ipv4Range.to_subnets { start := 6, end_ := 9 } =
    [{ addr := 6, prefix_len := 31 }, { addr := 8, prefix_len := 31 }] := by decide
example : Ipv4Range.to_subnets { start := 0, end_ := 0xffffffff } =
    [{ addr := 0, prefix_len := 0 }] := by decide
example : parse_ipv4 "192.168.1.0".toList = some 0xc0a80100 := by decide
example : parse_ipv4 "192.168.01.0".toList = none := by decide
example : parse_ipv4 "1.2.3".toList = none := by decide
example : parse_u8 "32".toList = some 32 := by decide
example : parse_u8 "+7".toList = some 7 := by decide
example : parse_u8 "260".toList = none := by decide
example : parse_range "192.168.1.0-192.168.0.255".toList = .error "Invalid Range" := by rfl
example : parse_range "255.255.255.255/32".toList =
    .ok { start := 0xffffffff, end_ := 0xffffffff } := by rfl
example : parse_range "10.0.0.0 - 10.0.0.5".toList =
    .ok { start := 0x0a000000, end_ := 0x0a000005 } := by rfl
example : parse_range "127.0.0.1".toList = .error "Invalid IP range/subnet" := by rfl
example : merge_ranges [{ start := 0x0a000000, end_ := 0x0a000001 },
    { start := 0x0a000002, end_ := 0x0a000005 }] =
    [{ start := 0x0a000000, end_ := 0x0a000005 }] := by decide
example : merge_ranges [{ start := 0, end_ := 0xffffffff },
    { start := 0xffffffff, end_ := 0xffffffff }] =
    [{ start := 0, end_ := 0xffffffff }, { start := 0xffffffff, end_ := 0xffffffff }] := by decide

/-! ### Facts about `count_suffix_zero_bits` -/

lemma cszbAux_le (fuel : Nat) : ∀ i ip, i ≤ 33 → cszbAux fuel i ip ≤ 33 := by
  induction fuel with
  | zero => intro i ip h; simpa [cszbAux] using h
  | succ n ih =>
    intro i ip h
    simp only [cszbAux]
    split
    next hc => exact ih _ _ (by omega)
    next => exact h

lemma cszbAux_dvd (fuel : Nat) :
    ∀ i ip, i ≤ cszbAux fuel i ip ∧ 2 ^ (cszbAux fuel i ip - i) ∣ ip := by
  induction fuel with
  | zero => intro i ip; exact ⟨Nat.le_refl i, by simp [cszbAux]⟩
  | succ n ih =>
    intro i ip
    simp only [cszbAux]
    split
    next hc =>
      obtain ⟨h1, h2⟩ := ih (i + 1) (ip / 2)
      refine ⟨by omega, ?_⟩
      have hip : 2 * (ip / 2) = ip := Nat.mul_div_cancel' (Nat.dvd_of_mod_eq_zero hc.2)
      have hpow : 2 ^ (cszbAux n (i + 1) (ip / 2) - i) =
          2 * 2 ^ (cszbAux n (i + 1) (ip / 2) - (i + 1)) := by
        rw [← pow_succ']
        congr 1
        omega
      rw [hpow]
      exact dvd_trans (Nat.mul_dvd_mul_left 2 h2) (dvd_of_eq hip)
    next => exact ⟨Nat.le_refl i, by simp⟩

lemma cszb_le (ip : Nat) : count_suffix_zero_bits ip ≤ 33 := cszbAux_le 34 0 ip (by omega)

lemma cszb_dvd (ip : Nat) : 2 ^ count_suffix_zero_bits ip ∣ ip := by
  simpa using (cszbAux_dvd 34 0 ip).2

/-! ### Mask arithmetic -/

lemma two_pow_sub_one_div (a b : Nat) (h : b ≤ a) : (2 ^ a - 1) / 2 ^ b = 2 ^ (a - b) - 1 := by
  have hprod : 2 ^ b * 2 ^ (a - b) = 2 ^ a := by rw [← pow_add]; congr 1; omega
  have hx : 1 ≤ 2 ^ (a - b) := Nat.one_le_two_pow
  have hy : 1 ≤ 2 ^ b := Nat.one_le_two_pow
  have hab : 2 ^ b ≤ 2 ^ a := Nat.pow_le_pow_right (by omega) h
  have hsplit : 2 ^ a - 1 = 2 ^ b * (2 ^ (a - b) - 1) + (2 ^ b - 1) := by
    have : 2 ^ b * (2 ^ (a - b) - 1) = 2 ^ a - 2 ^ b := by
      rw [Nat.mul_sub, hprod, Nat.mul_one]
    omega
  rw [hsplit, Nat.mul_add_div (Nat.two_pow_pos b), Nat.div_eq_of_lt (by omega)]
  omega

lemma make_mask_eq (p : Nat) (hp : p ≤ 32) : make_mask p = 2 ^ 32 - 2 ^ (32 - p) := by
  unfold make_mask
  split
  next h => subst h; simp
  next h =>
    split
    next h2 =>
      have hn : 32 - p ≤ 32 := by omega
      have : (0xffffffff : Nat) = 2 ^ 32 - 1 := by norm_num
      rw [this, Nat.shiftRight_eq_div_pow, Nat.shiftLeft_eq,
        two_pow_sub_one_div 32 (32 - p) hn]
      have hprod : 2 ^ (32 - (32 - p)) * 2 ^ (32 - p) = 2 ^ 32 := by
        rw [← pow_add]; congr 1; omega
      rw [Nat.sub_mul, hprod, Nat.one_mul]
    next h2 =>
      have : p = 32 := by omega
      subst this
      norm_num

lemma make_mask_shl (p : Nat) (hp : p ≤ 32) : make_mask p = (2 ^ p - 1) <<< (32 - p) := by
  rw [make_mask_eq p hp, Nat.shiftLeft_eq]
  have hprod : 2 ^ p * 2 ^ (32 - p) = 2 ^ 32 := by rw [← pow_add]; congr 1; omega
  rw [Nat.sub_mul, hprod, Nat.one_mul]

lemma not32_make_mask (p : Nat) (hp : p ≤ 32) : not32 (make_mask p) = 2 ^ (32 - p) - 1 := by
  unfold not32
  rw [make_mask_shl p hp]
  apply Nat.eq_of_testBit_eq
  intro j
  have h32 : (0xffffffff : Nat) = 2 ^ 32 - 1 := by norm_num
  simp only [h32, Nat.testBit_xor, Nat.testBit_shiftLeft, Nat.testBit_two_pow_sub_one,
    ge_iff_le]
  rcases Nat.lt_or_ge j (32 - p) with h | h
  · simp [h, Nat.not_le_of_lt h, (by omega : j < 32)]
  · rcases Nat.lt_or_ge j 32 with h2 | h2
    · simp [h, h2, (by omega : j - (32 - p) < p), (by omega : ¬ j < 32 - p)]
    · rw [decide_eq_false (show ¬ j < 32 by omega),
        decide_eq_false (show ¬ j - (32 - p) < p by omega),
        decide_eq_false (show ¬ j < 32 - p by omega)]
      simp

lemma and_mask_eq (a p : Nat) (hp : p ≤ 32) :
    a &&& make_mask p = 2 ^ (32 - p) * (a % 2 ^ 32 / 2 ^ (32 - p)) := by
  rw [make_mask_shl p hp]
  have hr : 2 ^ (32 - p) * (a % 2 ^ 32 / 2 ^ (32 - p)) =
      ((a % 2 ^ 32) >>> (32 - p)) <<< (32 - p) := by
    rw [Nat.shiftRight_eq_div_pow, Nat.shiftLeft_eq, Nat.mul_comm]
  rw [hr]
  apply Nat.eq_of_testBit_eq
  intro j
  simp only [Nat.testBit_and, Nat.testBit_shiftLeft, Nat.testBit_shiftRight,
    Nat.testBit_two_pow_sub_one, Nat.testBit_mod_two_pow, ge_iff_le]
  rcases Nat.lt_or_ge j (32 - p) with h | h
  · simp [Nat.not_le_of_lt h]
  · rcases Nat.lt_or_ge j 32 with h2 | h2
    · have hj : 32 - p + (j - (32 - p)) = j := by omega
      simp [h, hj, h2, (by omega : j - (32 - p) < p), Bool.and_comm]
    · have hj : 32 - p + (j - (32 - p)) = j := by omega
      simp only [h, hj, decide_eq_true (show 32 - p ≤ j by omega)]
      rw [decide_eq_false (show ¬ j < 32 by omega),
        decide_eq_false (show ¬ j - (32 - p) < p by omega)]
      simp

lemma or_low_eq_add {x b n : Nat} (hx : 2 ^ n ∣ x) (hb : b < 2 ^ n) : x ||| b = x + b := by
  obtain ⟨c, rfl⟩ := hx
  exact (Nat.mul_add_lt_is_or hb c).symm

/-! ### Closed forms for subnet start/end addresses -/

lemma start_addr_eq (s : Ipv4Subnet) (hp : s.prefix_len ≤ 32) :
    s.start_addr = 2 ^ (32 - s.prefix_len) * (s.addr % 2 ^ 32 / 2 ^ (32 - s.prefix_len)) :=
  and_mask_eq s.addr s.prefix_len hp

lemma start_addr_dvd (s : Ipv4Subnet) (hp : s.prefix_len ≤ 32) :
    2 ^ (32 - s.prefix_len) ∣ s.start_addr := by
  rw [start_addr_eq s hp]
  exact Dvd.intro _ rfl

lemma start_addr_lt (s : Ipv4Subnet) (hp : s.prefix_len ≤ 32) : s.start_addr < 2 ^ 32 := by
  rw [start_addr_eq s hp]
  calc 2 ^ (32 - s.prefix_len) * (s.addr % 2 ^ 32 / 2 ^ (32 - s.prefix_len))
      ≤ s.addr % 2 ^ 32 := by
        rw [Nat.mul_comm]
        exact Nat.div_mul_le_self _ _
    _ < 2 ^ 32 := Nat.mod_lt _ (by norm_num)

lemma end_addr_eq (s : Ipv4Subnet) (hp : s.prefix_len ≤ 32) :
    s.end_addr = s.start_addr + (2 ^ (32 - s.prefix_len) - 1) := by
  show s.start_addr ||| not32 (make_mask s.prefix_len) = _
  rw [not32_make_mask s.prefix_len hp]
  exact or_low_eq_add (start_addr_dvd s hp) (by have := Nat.two_pow_pos (32 - s.prefix_len); omega)

lemma start_le_end_addr (s : Ipv4Subnet) (hp : s.prefix_len ≤ 32) :
    s.start_addr ≤ s.end_addr := by
  rw [end_addr_eq s hp]
  omega

lemma start_addr_aligned (a n : Nat) (hn : n ≤ 32) (ha : 2 ^ n ∣ a) (hlt : a < 2 ^ 32) :
    Ipv4Subnet.start_addr { addr := a, prefix_len := 32 - n } = a := by
  have hp : (32 : Nat) - n ≤ 32 := by omega
  rw [start_addr_eq _ hp]
  simp only
  have h1 : 32 - (32 - n) = n := by omega
  rw [h1, Nat.mod_eq_of_lt hlt, Nat.mul_div_cancel' ha]

lemma end_addr_aligned (a n : Nat) (hn : n ≤ 32) (ha : 2 ^ n ∣ a) (hlt : a < 2 ^ 32) :
    Ipv4Subnet.end_addr { addr := a, prefix_len := 32 - n } = a + (2 ^ n - 1) := by
  have hp : (32 : Nat) - n ≤ 32 := by omega
  rw [end_addr_eq _ hp, start_addr_aligned a n hn ha hlt]
  show a + (2 ^ (32 - (32 - n)) - 1) = a + (2 ^ n - 1)
  rw [Nat.sub_sub_self hn]

/-! ### The inner halving loop of the decomposition -/

lemma shrinkAux_spec : ∀ s fuel st e, st ≤ e → s + 1 ≤ fuel →
    (shrinkAux fuel st e (2 ^ s - 1) s).1 = 2 ^ (shrinkAux fuel st e (2 ^ s - 1) s).2 - 1 ∧
    (shrinkAux fuel st e (2 ^ s - 1) s).2 ≤ s ∧
    st + (shrinkAux fuel st e (2 ^ s - 1) s).1 ≤ e := by
  intro s
  induction s with
  | zero =>
    intro fuel st e h1 h2
    obtain ⟨f, rfl⟩ : ∃ f, fuel = f + 1 := ⟨fuel - 1, by omega⟩
    simp only [shrinkAux, pow_zero]
    have hne : ¬ e < st := by omega
    simp [hne, h1]
  | succ k ih =>
    intro fuel st e h1 h2
    obtain ⟨f, rfl⟩ : ∃ f, fuel = f + 1 := ⟨fuel - 1, by omega⟩
    simp only [shrinkAux]
    split
    next hc =>
      have hd : (2 ^ (k + 1) - 1) / 2 = 2 ^ k - 1 := by
        have := two_pow_sub_one_div (k + 1) 1 (by omega)
        simpa using this
      have hs : k + 1 - 1 = k := by omega
      rw [hd, hs]
      obtain ⟨a1, a2, a3⟩ := ih f st e h1 (by omega)
      exact ⟨a1, by omega, a3⟩
    next hc =>
      exact ⟨rfl, Nat.le_refl _, by omega⟩

lemma shrinkChk_eq : ∀ s fuel st e, st ≤ e → s + 1 ≤ fuel →
    shrinkChk fuel st e (2 ^ s - 1) s = some (shrinkAux fuel st e (2 ^ s - 1) s) := by
  intro s
  induction s with
  | zero =>
    intro fuel st e h1 h2
    obtain ⟨f, rfl⟩ : ∃ f, fuel = f + 1 := ⟨fuel - 1, by omega⟩
    simp only [shrinkChk, shrinkAux, pow_zero]
    have hne : ¬ e < st := by omega
    simp [hne]
  | succ k ih =>
    intro fuel st e h1 h2
    obtain ⟨f, rfl⟩ : ∃ f, fuel = f + 1 := ⟨fuel - 1, by omega⟩
    simp only [shrinkChk, shrinkAux]
    split
    next hc =>
      have hd : (2 ^ (k + 1) - 1) / 2 = 2 ^ k - 1 := by
        have := two_pow_sub_one_div (k + 1) 1 (by omega)
        simpa using this
      have hs : k + 1 - 1 = k := by omega
      rw [if_neg (by omega), hd, hs]
      exact ih f st e h1 (by omega)
    next hc => rfl

lemma shrink_s_le (st e : Nat) (h1 : st ≤ e) (h2 : e < 2 ^ 32) :
    (shrinkAux (count_suffix_zero_bits st + 1) st e
      (2 ^ count_suffix_zero_bits st - 1) (count_suffix_zero_bits st)).2 ≤ 32 := by
  rcases le_or_lt (count_suffix_zero_bits st) 32 with h | h
  · exact le_trans (shrinkAux_spec _ _ st e h1 (Nat.le_refl _)).2.1 h
  · have h33 : count_suffix_zero_bits st = 33 := by have := cszb_le st; omega
    rw [h33]
    show (shrinkAux (33 + 1) st e (2 ^ 33 - 1) 33).2 ≤ 32
    simp only [shrinkAux]
    rw [if_pos (by
      have e1 : (2 : Nat) ^ 33 = 8589934592 := by norm_num
      have e2 : (2 : Nat) ^ 32 = 4294967296 := by norm_num
      omega)]
    have hd : ((2 : Nat) ^ 33 - 1) / 2 = 2 ^ 32 - 1 := by
      have := two_pow_sub_one_div 33 1 (by omega)
      simpa using this
    have hs : (33 : Nat) - 1 = 32 := by omega
    rw [hd, hs]
    exact (shrinkAux_spec 32 33 st e h1 (by omega)).2.1

/-! ### The decomposition emits a contiguous chain of blocks -/

lemma to_subnetsAux_nil (fuel st e : Nat) (h : e < st) : to_subnetsAux fuel st e = [] := by
  cases fuel with
  | zero => rfl
  | succ f => simp [to_subnetsAux, Nat.not_le.mpr h]

lemma to_subnetsAux_chain : ∀ fuel st e, st ≤ e → e < 2 ^ 32 → e + 1 - st ≤ fuel →
    blocks_chain st e (to_subnetsAux fuel st e) := by
  intro fuel
  induction fuel with
  | zero => intro st e h1 h2 h3; omega
  | succ f ih =>
    intro st e h1 h2 h3
    simp only [to_subnetsAux]
    rw [if_pos h1]
    obtain ⟨hd, hsle, hfit⟩ :=
      shrinkAux_spec (count_suffix_zero_bits st) (count_suffix_zero_bits st + 1) st e h1
        (Nat.le_refl _)
    set ds := shrinkAux (count_suffix_zero_bits st + 1) st e
      (2 ^ count_suffix_zero_bits st - 1) (count_suffix_zero_bits st) with hds
    have hdvd : 2 ^ ds.2 ∣ st := dvd_trans (pow_dvd_pow 2 hsle) (cszb_dvd st)
    have hs32 : ds.2 ≤ 32 := shrink_s_le st e h1 h2
    have hstlt : st < 2 ^ 32 := lt_of_le_of_lt h1 h2
    have hmod : st % 2 ^ 32 = st := Nat.mod_eq_of_lt hstlt
    have hsa : Ipv4Subnet.start_addr { addr := st % 2 ^ 32, prefix_len := 32 - ds.2 } = st := by
      rw [hmod]
      exact start_addr_aligned st ds.2 hs32 hdvd hstlt
    have hea : Ipv4Subnet.end_addr { addr := st % 2 ^ 32, prefix_len := 32 - ds.2 } =
        st + (2 ^ ds.2 - 1) := by
      rw [hmod]
      exact end_addr_aligned st ds.2 hs32 hdvd hstlt
    refine ⟨hmod, hsa, ?_, ?_, ?_⟩
    · rw [hea]
      exact Nat.le_add_right _ _
    · rw [hea]
      omega
    · rw [hea]
      have hnext : st + (2 ^ ds.2 - 1) + 1 = st + ds.1 + 1 := by omega
      rw [hnext]
      rcases le_or_lt (st + ds.1 + 1) e with hle | hgt
      · exact ih (st + ds.1 + 1) e hle h2 (by omega)
      · rw [to_subnetsAux_nil f _ e hgt]
        show st + ds.1 + 1 = e + 1
        omega

lemma blocks_chain_bounds : ∀ (l : List Ipv4Subnet) (cur e : Nat), blocks_chain cur e l →
    ∀ sn ∈ l, cur ≤ sn.start_addr ∧ sn.addr = sn.start_addr ∧
      sn.start_addr ≤ sn.end_addr ∧ sn.end_addr ≤ e := by
  intro l
  induction l with
  | nil => intro cur e _ sn h; cases h
  | cons hd tl ih =>
    intro cur e hc sn hmem
    obtain ⟨h1, h2, h3, h4, h5⟩ := hc
    rcases List.mem_cons.mp hmem with rfl | hmem
    · exact ⟨le_of_eq h2.symm, h1.trans h2.symm, h2 ▸ h3, h4⟩
    · obtain ⟨b1, b2, b3, b4⟩ := ih (hd.end_addr + 1) e h5 sn hmem
      exact ⟨by omega, b2, b3, b4⟩

lemma blocks_chain_cover : ∀ (l : List Ipv4Subnet) (cur e : Nat), blocks_chain cur e l →
    ∀ a, (cur ≤ a ∧ a ≤ e) ↔ ∃ sn ∈ l, sn.start_addr ≤ a ∧ a ≤ sn.end_addr := by
  intro l
  induction l with
  | nil =>
    intro cur e hc a
    have hce : cur = e + 1 := hc
    refine ⟨fun h => absurd hce (by omega), fun h => ?_⟩
    obtain ⟨sn, hm, _⟩ := h
    exact absurd hm (List.not_mem_nil sn)
  | cons hd tl ih =>
    intro cur e hc a
    obtain ⟨h1, h2, h3, h4, h5⟩ := hc
    have htl := ih (hd.end_addr + 1) e h5 a
    constructor
    · rintro ⟨ha1, ha2⟩
      rcases le_or_lt a hd.end_addr with hle | hgt
      · exact ⟨hd, List.mem_cons_self _ _, by omega, hle⟩
      · obtain ⟨sn, hmem, hs⟩ := htl.mp ⟨by omega, ha2⟩
        exact ⟨sn, List.mem_cons_of_mem _ hmem, hs⟩
    · rintro ⟨sn, hmem, hs1, hs2⟩
      rcases List.mem_cons.mp hmem with rfl | hmem
      · constructor <;> omega
      · obtain ⟨b1, _, _, b4⟩ := blocks_chain_bounds tl _ e h5 sn hmem
        constructor <;> omega

lemma blocks_chain_pairwise : ∀ (l : List Ipv4Subnet) (cur e : Nat), blocks_chain cur e l →
    List.Pairwise (fun x y => x.end_addr < y.start_addr) l := by
  intro l
  induction l with
  | nil => intro _ _ _; exact List.Pairwise.nil
  | cons hd tl ih =>
    intro cur e hc
    obtain ⟨h1, h2, h3, h4, h5⟩ := hc
    refine List.Pairwise.cons ?_ (ih _ e h5)
    intro sn hmem
    obtain ⟨b1, _, _, _⟩ := blocks_chain_bounds tl _ e h5 sn hmem
    omega

lemma blocks_chain_contiguous : ∀ (l : List Ipv4Subnet) (cur e : Nat), blocks_chain cur e l →
    List.Chain' (fun x y => y.start_addr = x.end_addr + 1) l := by
  intro l
  induction l with
  | nil => intro _ _ _; exact List.chain'_nil
  | cons hd tl ih =>
    intro cur e hc
    obtain ⟨h1, h2, h3, h4, h5⟩ := hc
    cases tl with
    | nil => exact List.chain'_singleton hd
    | cons hd2 tl2 =>
      have h5' := h5
      obtain ⟨g1, g2, _, _, _⟩ := h5
      exact List.Chain'.cons (by rw [g2]) (ih _ e h5')

/-! ### Merge lemmas -/

lemma mergeAux_valid : ∀ (rs : List Ipv4Range) (cur : Ipv4Range), cur.start ≤ cur.end_ →
    (∀ r ∈ rs, r.start ≤ r.end_) → ∀ x ∈ mergeAux cur rs, x.start ≤ x.end_ := by
  intro rs
  induction rs with
  | nil =>
    intro cur hcur _ x hx
    have : x = cur := by simpa [mergeAux] using hx
    exact this ▸ hcur
  | cons r rs ih =>
    intro cur hcur hall x hx
    simp only [mergeAux] at hx
    split at hx
    · rcases List.mem_cons.mp hx with rfl | hx2
      · exact hcur
      · exact ih r (hall r (List.mem_cons_self _ _))
          (fun y hy => hall y (List.mem_cons_of_mem _ hy)) x hx2
    · refine ih _ ?_ (fun y hy => hall y (List.mem_cons_of_mem _ hy)) x hx
      show cur.start ≤ max cur.end_ r.end_
      exact le_trans hcur (le_max_left _ _)

lemma merge_ranges_valid (l : List Ipv4Range) (h : ∀ r ∈ l, r.start ≤ r.end_) :
    ∀ x ∈ merge_ranges l, x.start ≤ x.end_ := by
  match l with
  | [] => intro x hx; cases hx
  | [r] => exact fun x hx => h x hx
  | r :: r2 :: rs =>
    show ∀ x ∈ mergeAux r (r2 :: rs), x.start ≤ x.end_
    exact mergeAux_valid (r2 :: rs) r (h r (List.mem_cons_self _ _))
      (fun y hy => h y (List.mem_cons_of_mem _ hy))

lemma mergeAux_id : ∀ (rs : List Ipv4Range) (cur : Ipv4Range),
    (∀ r ∈ rs, r.start < 2 ^ 32) →
    List.Pairwise (fun a b => a.end_ + 1 < b.start) (cur :: rs) →
    mergeAux cur rs = cur :: rs := by
  intro rs
  induction rs with
  | nil => intro cur _ _; rfl
  | cons r rs ih =>
    intro cur hb hp
    obtain ⟨hhead, htail⟩ := List.pairwise_cons.mp hp
    have hgap : cur.end_ + 1 < r.start := hhead r (List.mem_cons_self _ _)
    have hlt : r.start < 2 ^ 32 := hb r (List.mem_cons_self _ _)
    have hmod : (cur.end_ + 1) % 2 ^ 32 = cur.end_ + 1 := Nat.mod_eq_of_lt (by omega)
    simp only [mergeAux]
    rw [if_pos (by rw [hmod]; exact hgap)]
    congr 1
    exact ih r (fun y hy => hb y (List.mem_cons_of_mem _ hy)) htail

/-! ### Claim theorems: decomposition and merging -/

/-- C1. For every Range `r` with `start ≤ end` (addresses being 32-bit values),
`r.to_subnets()` is sorted by ascending base address and the derived ranges of
its subnets exactly partition `[r.start, r.end]`: their union equals the
interval, consecutive blocks are contiguous, and no two blocks overlap. -/
theorem c1_to_subnets_exact_partition (r : Ipv4Range) (h1 : r.start ≤ r.end_)
    (h2 : r.end_ < 2 ^ 32) : to_subnets_partition r := by
  have hchain : blocks_chain r.start r.end_ r.to_subnets :=
    to_subnetsAux_chain (r.end_ + 2) r.start r.end_ h1 h2 (by omega)
  have hpw := blocks_chain_pairwise _ _ _ hchain
  have hb := blocks_chain_bounds _ _ _ hchain
  refine ⟨blocks_chain_cover _ _ _ hchain, ?_,
    blocks_chain_contiguous _ _ _ hchain, hpw⟩
  refine hpw.imp_of_mem ?_
  intro x y hx hy hr
  obtain ⟨_, ax, sx, _⟩ := hb x hx
  obtain ⟨_, ay, _, _⟩ := hb y hy
  omega

theorem c1_to_subnets_exact_partition_witness :
    to_subnets_partition { start := 6, end_ := 9 } :=
  c1_to_subnets_exact_partition { start := 6, end_ := 9 } (by decide) (by decide)

/-- C7. Merging an already-merged list (pairwise disjoint and non-adjacent:
each later range starts more than one past each earlier range's end) returns
the list unchanged; empty and singleton lists are covered by the same
statement since the hypotheses hold vacuously for them. -/
theorem c7_merge_idempotent (l : List Ipv4Range)
    (hb : ∀ r ∈ l, r.start < 2 ^ 32)
    (hp : List.Pairwise (fun a b => a.end_ + 1 < b.start) l) :
    merge_ranges l = l := by
  match l with
  | [] => rfl
  | [r] => rfl
  | r :: r2 :: rs =>
    show mergeAux r (r2 :: rs) = r :: r2 :: rs
    exact mergeAux_id (r2 :: rs) r (fun y hy => hb y (List.mem_cons_of_mem _ hy)) hp

theorem c7_merge_idempotent_witness :
    merge_ranges [{ start := 1, end_ := 4 }, { start := 6, end_ := 9 }] =
      [{ start := 1, end_ := 4 }, { start := 6, end_ := 9 }] :=
  c7_merge_idempotent _ (by decide)
    (by constructor
        · intro b hb
          have : b = { start := 6, end_ := 9 } := by simpa using hb
          rw [this]
          decide
        · exact List.pairwise_singleton _ _)

/-! ### Claim theorems: merge overflow, trailing zeros, invariants, update_end -/

/-- C2 (evaluation of the code at the failing input). On the sorted, valid
input `[0.0.0.0 - 255.255.255.255, 255.255.255.255 - 255.255.255.255]` the
32-bit computation `curEnd + 1` wraps to 0, the adjacency test spuriously
succeeds, and `merge_ranges` keeps both ranges, so address `255.255.255.255`
is covered by two distinct output ranges — contradicting the claim that every
covered address lies in exactly one output range. -/
theorem c2_merge_overflow_at_max :
    merge_ranges [{ start := 0, end_ := 0xffffffff },
        { start := 0xffffffff, end_ := 0xffffffff }] =
      [{ start := 0, end_ := 0xffffffff }, { start := 0xffffffff, end_ := 0xffffffff }] ∧
    range_le { start := 0, end_ := 0xffffffff } { start := 0xffffffff, end_ := 0xffffffff } ∧
    ({ start := 0, end_ := 0xffffffff } : Ipv4Range).start ≤
      ({ start := 0, end_ := 0xffffffff } : Ipv4Range).end_ ∧
    ({ start := 0xffffffff, end_ := 0xffffffff } : Ipv4Range).start ≤
      ({ start := 0xffffffff, end_ := 0xffffffff } : Ipv4Range).end_ ∧
    covers { start := 0, end_ := 0xffffffff } 0xffffffff ∧
    covers { start := 0xffffffff, end_ := 0xffffffff } 0xffffffff ∧
    ({ start := 0, end_ := 0xffffffff } : Ipv4Range) ≠
      { start := 0xffffffff, end_ := 0xffffffff } :=
  ⟨by decide, Or.inl (by norm_num), Nat.zero_le _, Nat.le_refl _,
    ⟨Nat.zero_le _, Nat.le_refl _⟩, ⟨Nat.le_refl _, Nat.le_refl _⟩, by decide⟩

/-- C3 (counterexample). The claim says `count_suffix_zero_bits` never
returns more than 32; at input 0 the loop guard `i <= 32` still admits one
final increment, and the function returns 33. -/
theorem c3_cszb_cap_counterexample : ¬ count_suffix_zero_bits 0 ≤ 32 := by decide

/-- C3 (amended). The cap of the trailing-zero loop is 33, not 32: for every
input, `count_suffix_zero_bits` returns a value `s ≤ 33` with `2 ^ s`
dividing the input (input 0 returns exactly 33); the subsequent halving loop
of the decomposition is what brings the exponent down to at most 32. -/
theorem c3_cszb_cap_amended (ip : Nat) :
    count_suffix_zero_bits ip ≤ 33 ∧ 2 ^ count_suffix_zero_bits ip ∣ ip ∧
    count_suffix_zero_bits 0 = 33 :=
  ⟨cszb_le ip, cszb_dvd ip, by decide⟩

/-- C4. Every operation establishes or preserves the Range invariant
`start ≤ end`: the pair constructor rejects `start > end` and otherwise
returns exactly the given bounds; conversion from any Subnet with prefix
`0..=32` yields a valid Range (`startAddress ≤ endAddress` always); the
fallible Range-from-subnet constructor only returns valid Ranges;
`update_end` keeps validity; `merge_ranges` maps valid inputs to valid
outputs. -/
theorem c4_range_invariant :
    (∀ s e, e < s → range_try_from_pair s e = .error "Invalid Range") ∧
    (∀ s e r, range_try_from_pair s e = .ok r →
      r.start = s ∧ r.end_ = e ∧ r.start ≤ r.end_) ∧
    (∀ sn : Ipv4Subnet, sn.prefix_len ≤ 32 →
      (Ipv4Range.from_subnet sn).start ≤ (Ipv4Range.from_subnet sn).end_) ∧
    (∀ a p r, range_try_from_subnet a p = .ok r → r.start ≤ r.end_) ∧
    (∀ (r : Ipv4Range) (e : Nat), r.start ≤ r.end_ →
      (r.update_end e).2.start ≤ (r.update_end e).2.end_) ∧
    (∀ l, (∀ r ∈ l, r.start ≤ r.end_) → ∀ x ∈ merge_ranges l, x.start ≤ x.end_) := by
  refine ⟨?_, ?_, ?_, ?_, ?_, merge_ranges_valid⟩
  · intro s e h
    unfold range_try_from_pair
    rw [if_pos (by omega)]
  · intro s e r h
    unfold range_try_from_pair at h
    split at h
    · cases h
    next hns =>
      cases h
      refine ⟨rfl, rfl, ?_⟩
      show s ≤ e
      omega
  · intro sn hp
    exact start_le_end_addr sn hp
  · intro a p r h
    by_cases hp : p > 32
    · simp [range_try_from_subnet, subnet_try_from, hp] at h
    · simp [range_try_from_subnet, subnet_try_from, hp] at h
      rw [← h]
      exact start_le_end_addr _ (by show p ≤ 32; omega)
  · intro r e h
    unfold Ipv4Range.update_end
    split
    · exact h
    next hge =>
      show r.start ≤ e
      omega

theorem c4_range_invariant_witness :
    range_try_from_pair 9 4 = .error "Invalid Range" ∧
    ((Ipv4Range.update_end { start := 3, end_ := 3 } 10).2.start ≤
      (Ipv4Range.update_end { start := 3, end_ := 3 } 10).2.end_) :=
  ⟨c4_range_invariant.1 9 4 (by decide),
    c4_range_invariant.2.2.2.2.1 { start := 3, end_ := 3 } 10 (by decide)⟩

/-- C6. `update_end(newEnd)` returns `false` and leaves the Range completely
unchanged when `newEnd < start`; otherwise it returns `true`, sets `end` to
`newEnd`, and leaves `start` unchanged. -/
theorem c6_update_end (r : Ipv4Range) (e : Nat) :
    (e < r.start → r.update_end e = (false, r)) ∧
    (r.start ≤ e → r.update_end e = (true, { start := r.start, end_ := e })) := by
  constructor
  · intro h
    unfold Ipv4Range.update_end
    rw [if_pos h]
  · intro h
    unfold Ipv4Range.update_end
    rw [if_neg (by omega)]

theorem c6_update_end_witness :
    Ipv4Range.update_end { start := 5, end_ := 9 } 3 = (false, { start := 5, end_ := 9 }) ∧
    Ipv4Range.update_end { start := 5, end_ := 9 } 12 = (true, { start := 5, end_ := 12 }) :=
  ⟨(c6_update_end { start := 5, end_ := 9 } 3).1 (by decide),
    (c6_update_end { start := 5, end_ := 9 } 12).2 (by decide)⟩

/-! ### Claim theorem: the decomposition never hits a failing branch -/

lemma to_subnetsChkAux_eq : ∀ fuel st e, e < 2 ^ 32 → e + 2 - st ≤ fuel → 1 ≤ fuel →
    to_subnetsChkAux fuel st e = some (to_subnetsAux fuel st e) := by
  intro fuel
  induction fuel with
  | zero => intro st e _ _ h; omega
  | succ f ih =>
    intro st e h2 h3 _
    by_cases hst : st ≤ e
    · simp only [to_subnetsChkAux, to_subnetsAux]
      rw [if_pos hst, if_pos hst]
      have hs32 := shrink_s_le st e hst h2
      obtain ⟨d, sv, hsh⟩ : ∃ d sv,
          shrinkAux (count_suffix_zero_bits st + 1) st e
            (2 ^ count_suffix_zero_bits st - 1) (count_suffix_zero_bits st) = (d, sv) :=
        ⟨_, _, rfl⟩
      obtain ⟨hd, hsle, hfit⟩ :=
        shrinkAux_spec (count_suffix_zero_bits st) (count_suffix_zero_bits st + 1) st e hst
          (Nat.le_refl _)
      rw [hsh] at hs32 hd hsle hfit ⊢
      rw [shrinkChk_eq (count_suffix_zero_bits st) (count_suffix_zero_bits st + 1) st e hst
        (Nat.le_refl _), hsh]
      simp only [if_pos hs32]
      rw [ih (st + d + 1) e h2 (by omega) (by omega)]
      rfl
    · simp only [to_subnetsChkAux, to_subnetsAux]
      rw [if_neg hst, if_neg hst]

/-- C10. For every Range with `start ≤ end` the body of `to_subnets` never
hits a failing branch: the checked interpreter — which reports a failure
whenever the emitted block size exceeds 32 (so `32u8 - s` would underflow and
the subnet constructor's `unwrap` would panic) or the inner halving loop
would decrement `s` below zero — succeeds and returns exactly the subnets of
the plain `to_subnets`. -/
theorem c10_to_subnets_no_failing_branch (r : Ipv4Range) (h1 : r.start ≤ r.end_)
    (h2 : r.end_ < 2 ^ 32) : r.to_subnetsChk = some r.to_subnets :=
  to_subnetsChkAux_eq (r.end_ + 2) r.start r.end_ h2 (by omega) (by omega)

theorem c10_to_subnets_no_failing_branch_witness :
    Ipv4Range.to_subnetsChk { start := 0, end_ := 4 } =
      some (Ipv4Range.to_subnets { start := 0, end_ := 4 }) :=
  c10_to_subnets_no_failing_branch { start := 0, end_ := 4 } (by decide) (by decide)

/-! ### Characterization of `get_prefix_len` -/

lemma gpAux_spec (r : Ipv4Range) (h2 : r.start < 2 ^ 32) (h3 : r.end_ < 2 ^ 32) :
    ∀ fuel i, fuel + i = 32 → (∀ j, j < i → r.start >>> j ≠ r.end_ >>> j) →
    gpAux fuel i r ≤ 32 - i ∧
    r.start >>> (32 - gpAux fuel i r) = r.end_ >>> (32 - gpAux fuel i r) ∧
    (∀ j, j < 32 - gpAux fuel i r → r.start >>> j ≠ r.end_ >>> j) := by
  intro fuel
  induction fuel with
  | zero =>
    intro i hi hprev
    have hi32 : i = 32 := by omega
    subst hi32
    simp only [gpAux]
    refine ⟨Nat.zero_le _, ?_, ?_⟩
    · rw [Nat.sub_zero, Nat.shiftRight_eq_div_pow, Nat.shiftRight_eq_div_pow,
        Nat.div_eq_of_lt h2, Nat.div_eq_of_lt h3]
    · intro j hj
      exact hprev j (by omega)
  | succ f ih =>
    intro i hi hprev
    simp only [gpAux]
    split
    next heq =>
      have hii : 32 - (32 - i) = i := by omega
      exact ⟨Nat.le_refl _, by rw [hii]; exact heq, fun j hj => hprev j (by omega)⟩
    next hne =>
      obtain ⟨a1, a2, a3⟩ := ih (i + 1) (by omega) (by
        intro j hj
        rcases Nat.lt_or_ge j i with h | h
        · exact hprev j h
        · have : j = i := by omega
          rw [this]
          exact hne)
      exact ⟨by omega, a2, a3⟩

lemma get_prefix_facts (r : Ipv4Range) (h2 : r.start < 2 ^ 32) (h3 : r.end_ < 2 ^ 32) :
    r.get_prefix_len ≤ 32 ∧
    r.start >>> (32 - r.get_prefix_len) = r.end_ >>> (32 - r.get_prefix_len) ∧
    (∀ j, j < 32 - r.get_prefix_len → r.start >>> j ≠ r.end_ >>> j) := by
  have := gpAux_spec r h2 h3 32 0 rfl (by omega)
  simpa [Ipv4Range.get_prefix_len] using this

/-- C9. `get_prefix_len` returns `32 - i` for the smallest shift `i` in `0..=31`
such that `start >> i == end >> i`, and 0 when no such shift exists; and it
equals the longest prefix length on which `start` and `end` agree. -/
theorem c9_get_prefix_longest_common (r : Ipv4Range) (h1 : r.start ≤ r.end_)
    (h2 : r.start < 2 ^ 32) (h3 : r.end_ < 2 ^ 32) : get_prefix_spec r := by
  obtain ⟨f1, f2, f3⟩ := get_prefix_facts r h2 h3
  refine ⟨?_, ?_, f1, f2, ?_⟩
  · intro i hlt heq hmin
    have hni : 32 - r.get_prefix_len = i := by
      by_contra hne2
      rcases Nat.lt_or_ge (32 - r.get_prefix_len) i with h | h
      · exact hmin _ h f2
      · exact f3 i (by omega) heq
    omega
  · intro hall
    by_contra hne
    have hgt : 0 < r.get_prefix_len := by omega
    exact hall (32 - r.get_prefix_len) (by omega) f2
  · intro q hq heq
    by_contra hgt
    exact f3 (32 - q) (by omega) heq

theorem c9_get_prefix_longest_common_witness :
    get_prefix_spec { start := 2, end_ := 3 } :=
  c9_get_prefix_longest_common { start := 2, end_ := 3 } (by decide) (by decide) (by decide)

/-! ### Claim theorem: the minimal covering subnet -/

/-- C8. The covering subnet `{ addr: start, prefix: get_prefix_len() }` derived
from a Range over-approximates it — its derived interval contains
`[start, end]` — with equality exactly when the Range is subnet-aligned. -/
theorem c8_covering_subnet_over_approx (r : Ipv4Range) (h1 : r.start ≤ r.end_)
    (h3 : r.end_ < 2 ^ 32) :
    (Ipv4Subnet.from_range r).start_addr ≤ r.start ∧
    r.end_ ≤ (Ipv4Subnet.from_range r).end_addr ∧
    (((Ipv4Subnet.from_range r).start_addr = r.start ∧
      (Ipv4Subnet.from_range r).end_addr = r.end_) ↔ subnet_aligned r) := by
  have h2 : r.start < 2 ^ 32 := by omega
  obtain ⟨f1, f2, f3⟩ := get_prefix_facts r h2 h3
  have fmax : ∀ q, q ≤ 32 → r.start >>> (32 - q) = r.end_ >>> (32 - q) →
      q ≤ r.get_prefix_len := by
    intro q hq heq
    by_contra hgt
    exact f3 (32 - q) (by omega) heq
  have hple : (Ipv4Subnet.from_range r).prefix_len ≤ 32 := f1
  have haddr : (Ipv4Subnet.from_range r).addr = r.start := rfl
  have hplen : (Ipv4Subnet.from_range r).prefix_len = r.get_prefix_len := rfl
  have hsa : (Ipv4Subnet.from_range r).start_addr =
      2 ^ (32 - r.get_prefix_len) * (r.start / 2 ^ (32 - r.get_prefix_len)) := by
    rw [start_addr_eq _ hple, haddr, hplen, Nat.mod_eq_of_lt h2]
  have hea : (Ipv4Subnet.from_range r).end_addr =
      (Ipv4Subnet.from_range r).start_addr + (2 ^ (32 - r.get_prefix_len) - 1) := by
    rw [end_addr_eq _ hple, hplen]
  have hstart_le : (Ipv4Subnet.from_range r).start_addr ≤ r.start := by
    rw [hsa, Nat.mul_comm]
    exact Nat.div_mul_le_self _ _
  have hdiv_eq : r.start / 2 ^ (32 - r.get_prefix_len) = r.end_ / 2 ^ (32 - r.get_prefix_len) := by
    have h := f2
    rwa [Nat.shiftRight_eq_div_pow, Nat.shiftRight_eq_div_pow] at h
  have hend_le : r.end_ ≤ (Ipv4Subnet.from_range r).end_addr := by
    rw [hea, hsa, hdiv_eq]
    have hmod := Nat.mod_lt r.end_ (Nat.two_pow_pos (32 - r.get_prefix_len))
    have hdm := Nat.div_add_mod r.end_ (2 ^ (32 - r.get_prefix_len))
    omega
  refine ⟨hstart_le, hend_le, ?_, ?_⟩
  · rintro ⟨hs, he⟩
    exact ⟨Ipv4Subnet.from_range r, hple, hs, he⟩
  · rintro ⟨sn, hq, hs, he⟩
    have hdvd_m : 2 ^ (32 - sn.prefix_len) ∣ r.start := hs ▸ start_addr_dvd sn hq
    have hend_eq : r.end_ = r.start + (2 ^ (32 - sn.prefix_len) - 1) := by
      rw [← he, end_addr_eq sn hq, hs]
    have heqm : r.start >>> (32 - sn.prefix_len) = r.end_ >>> (32 - sn.prefix_len) := by
      obtain ⟨c, hc⟩ := hdvd_m
      have hp := Nat.two_pow_pos (32 - sn.prefix_len)
      have e1 : r.start / 2 ^ (32 - sn.prefix_len) = c := by
        rw [hc, Nat.mul_div_cancel_left _ hp]
      have e2 : r.end_ / 2 ^ (32 - sn.prefix_len) = c := by
        rw [hend_eq, hc, Nat.mul_add_div hp, Nat.div_eq_of_lt (by omega)]
        omega
      rw [Nat.shiftRight_eq_div_pow, Nat.shiftRight_eq_div_pow, e1, e2]
    have hqle : sn.prefix_len ≤ r.get_prefix_len := fmax _ hq heqm
    have hnm : 32 - r.get_prefix_len ≤ 32 - sn.prefix_len := by omega
    have hdvd_n : 2 ^ (32 - r.get_prefix_len) ∣ r.start :=
      dvd_trans (pow_dvd_pow 2 hnm) hdvd_m
    have hs_eq : (Ipv4Subnet.from_range r).start_addr = r.start := by
      rw [hsa, Nat.mul_div_cancel' hdvd_n]
    have hle_pow : 2 ^ (32 - sn.prefix_len) ≤ 2 ^ (32 - r.get_prefix_len) := by
      have hcontain := hend_le
      rw [hea, hs_eq, hend_eq] at hcontain
      have hp1 := Nat.two_pow_pos (32 - sn.prefix_len)
      have hp2 := Nat.two_pow_pos (32 - r.get_prefix_len)
      omega
    have hmn : 32 - sn.prefix_len = 32 - r.get_prefix_len := by
      have := (Nat.pow_le_pow_iff_right (by norm_num : 1 < 2)).mp hle_pow
      omega
    refine ⟨hs_eq, ?_⟩
    rw [hea, hs_eq, hend_eq, hmn]

theorem c8_covering_subnet_over_approx_witness :
    (Ipv4Subnet.from_range { start := 6, end_ := 9 }).start_addr ≤ 6 ∧
    9 ≤ (Ipv4Subnet.from_range { start := 6, end_ := 9 }).end_addr ∧
    (((Ipv4Subnet.from_range { start := 6, end_ := 9 }).start_addr = 6 ∧
      (Ipv4Subnet.from_range { start := 6, end_ := 9 }).end_addr = 9) ↔
      subnet_aligned { start := 6, end_ := 9 }) :=
  c8_covering_subnet_over_approx { start := 6, end_ := 9 } (by decide) (by decide)

/-! ### Parser helper lemmas -/

lemma parse_u8_digits_chars : ∀ (cs : List Char) (acc v : Nat),
    parse_u8_digits cs acc = some v → ∀ c ∈ cs, c.isDigit = true := by
  intro cs
  induction cs with
  | nil => intro acc v _ c hc; cases hc
  | cons x xs ih =>
    intro acc v h c hc
    simp only [parse_u8_digits] at h
    split at h
    next hx =>
      split at h
      · rcases List.mem_cons.mp hc with rfl | hc2
        · exact hx
        · exact ih _ _ h c hc2
      · cases h
    next hx => cases h

lemma parse_u8_chars : ∀ (cs : List Char) (v : Nat),
    parse_u8 cs = some v → ∀ c ∈ cs, c.isDigit = true ∨ c = '+' := by
  intro cs v h c hc
  match cs, hc with
  | x :: xs, hc =>
    simp only [parse_u8] at h
    split at h
    next hx =>
      subst hx
      rcases List.mem_cons.mp hc with rfl | hc2
      · exact Or.inr rfl
      · split at h
        · cases h
        · exact Or.inl (parse_u8_digits_chars xs 0 v h c hc2)
    next hx =>
      exact Or.inl (parse_u8_digits_chars (x :: xs) 0 v h c hc)

lemma expect_dot_eq : ∀ (l r : List Char), expect_dot l = some r → l = '.' :: r := by
  intro l r h
  match l with
  | [] => cases h
  | c :: rest =>
    simp only [expect_dot] at h
    split at h
    next hc =>
      cases h
      rw [hc]
    next hc => cases h

lemma read_octet_split : ∀ (cs : List Char) (v : Nat) (rest : List Char),
    read_octet cs = some (v, rest) →
    ∃ ds, cs = ds ++ rest ∧ ∀ c ∈ ds, c.isDigit = true := by
  intro cs v rest h
  simp only [read_octet] at h
  split at h
  · cases h
  · split at h
    · cases h
    · split at h
      · cases h
      · cases h
        exact ⟨cs.takeWhile Char.isDigit, (List.takeWhile_append_dropWhile _ _).symm,
          fun c hc => List.mem_takeWhile_imp hc⟩

lemma parse_ipv4_chars : ∀ (cs : List Char) (v : Nat),
    parse_ipv4 cs = some v → ∀ c ∈ cs, c.isDigit = true ∨ c = '.' := by
  intro cs v h c hc
  unfold parse_ipv4 at h
  obtain ⟨x1, g1, h⟩ := Option.bind_eq_some.mp h
  obtain ⟨a1, r1⟩ := x1
  obtain ⟨r2, g2, h⟩ := Option.bind_eq_some.mp h
  obtain ⟨x2, g3, h⟩ := Option.bind_eq_some.mp h
  obtain ⟨a2, r3⟩ := x2
  obtain ⟨r4, g4, h⟩ := Option.bind_eq_some.mp h
  obtain ⟨x3, g5, h⟩ := Option.bind_eq_some.mp h
  obtain ⟨a3, r5⟩ := x3
  obtain ⟨r6, g6, h⟩ := Option.bind_eq_some.mp h
  obtain ⟨x4, g7, h⟩ := Option.bind_eq_some.mp h
  obtain ⟨a4, r7⟩ := x4
  obtain ⟨ds1, e1, d1⟩ := read_octet_split _ _ _ g1
  obtain ⟨ds2, e2, d2⟩ := read_octet_split _ _ _ g3
  obtain ⟨ds3, e3, d3⟩ := read_octet_split _ _ _ g5
  obtain ⟨ds4, e4, d4⟩ := read_octet_split _ _ _ g7
  have hdot1 := expect_dot_eq _ _ g2
  have hdot2 := expect_dot_eq _ _ g4
  have hdot3 := expect_dot_eq _ _ g6
  have h' : (if r7.isEmpty then
      some (((a1 * 256 + a2) * 256 + a3) * 256 + a4) else none) = some v := h
  have hr7 : r7 = [] := by
    split at h'
    next hemp => exact List.isEmpty_iff.mp hemp
    next => cases h' 
  rw [e1, hdot1, e2, hdot2, e3, hdot3, e4, hr7] at hc
  rcases List.mem_append.mp hc with h1 | h1
  · exact Or.inl (d1 c h1)
  rcases List.mem_cons.mp h1 with rfl | h1
  · exact Or.inr rfl
  rcases List.mem_append.mp h1 with h1 | h1
  · exact Or.inl (d2 c h1)
  rcases List.mem_cons.mp h1 with rfl | h1
  · exact Or.inr rfl
  rcases List.mem_append.mp h1 with h1 | h1
  · exact Or.inl (d3 c h1)
  rcases List.mem_cons.mp h1 with rfl | h1
  · exact Or.inr rfl
  rcases List.mem_append.mp h1 with h1 | h1
  · exact Or.inl (d4 c h1)
  · cases h1

lemma find_char_get : ∀ (l : List Char) (c : Char) (n : Nat),
    find_char c l = some n → l.get? n = some c := by
  intro l
  induction l with
  | nil => intro c n h; cases h
  | cons x xs ih =>
    intro c n h
    simp only [find_char] at h
    split at h
    next hx =>
      cases h
      simpa using hx
    next hx =>
      obtain ⟨m, hm, hn⟩ := Option.map_eq_some'.mp h
      rw [← hn]
      show xs.get? m = some c
      exact ih c m hm

lemma mem_take_of_get (l : List Char) (i n : Nat) (c : Char)
    (h : l.get? i = some c) (hin : i < n) : c ∈ l.take n := by
  apply List.get?_mem (n := i)
  rw [List.get?_take hin]
  exact h

lemma mem_drop_of_get (l : List Char) (i n : Nat) (c : Char)
    (h : l.get? i = some c) (hn : n ≤ i) : c ∈ l.drop n := by
  apply List.get?_mem (n := i - n)
  rw [List.get?_drop]
  have : n + (i - n) = i := by omega
  rw [this]
  exact h

/-! ### Claim theorem: the parser -/

/-- C5. `parse_range` errs exactly when the input has neither `/` nor `-`,
or the subnet form is malformed (prefix not an unsigned integer in `0..=32`,
or address not a dotted quad), or the range form is malformed (either
trimmed side not a dotted quad, or start numerically above end); on success
the result is the Range built by the corresponding constructor; and the
boundary literal `192.168.1.0-192.168.0.255` fails with the invalid-range
error. -/
theorem c5_parse_range_characterization (a : List Char) :
    parse_range_spec a ∧
    parse_range "192.168.1.0-192.168.0.255".toList = .error "Invalid Range" := by
  refine ⟨⟨⟨?_, ?_⟩, ?_⟩, by rfl⟩
  · -- error implies one of the failure clauses
    rintro ⟨msg, herr⟩
    cases hfs : find_char '/' a with
    | some n =>
      simp only [parse_range, hfs] at herr
      cases hu8 : parse_u8 (a.drop (n + 1)) with
      | none => exact Or.inr (Or.inl ⟨n, rfl, Or.inl hu8⟩)
      | some p =>
        simp only [hu8] at herr
        cases hip : parse_ipv4 (a.take n) with
        | none => exact Or.inr (Or.inl ⟨n, rfl, Or.inr (Or.inr hip)⟩)
        | some addr =>
          simp only [hip] at herr
          by_cases hp : 32 < p
          · exact Or.inr (Or.inl ⟨n, rfl, Or.inr (Or.inl ⟨p, hu8, hp⟩)⟩)
          · simp [range_try_from_subnet, subnet_try_from, hp] at herr
    | none =>
      simp only [parse_range, hfs] at herr
      cases hfd : find_char '-' a with
      | none => simp only [hfd] at herr; exact Or.inl ⟨rfl, rfl⟩
      | some n =>
        simp only [hfd] at herr
        cases hl : parse_ipv4 (rust_trim (a.take n)) with
        | none => exact Or.inr (Or.inr ⟨n, rfl, Or.inl hl⟩)
        | some sv =>
          simp only [hl] at herr
          cases hr : parse_ipv4 (rust_trim (a.drop (n + 1))) with
          | none => exact Or.inr (Or.inr ⟨n, rfl, Or.inr (Or.inl hr)⟩)
          | some ev =>
            simp only [hr] at herr
            by_cases hlt : ev < sv
            · exact Or.inr (Or.inr ⟨n, rfl, Or.inr (Or.inr ⟨sv, ev, hl, hr, hlt⟩)⟩)
            · unfold range_try_from_pair at herr
              rw [if_neg (by omega)] at herr
              cases herr
  · -- each failure clause forces an error
    intro hdisj
    rcases hdisj with ⟨hfs, hfd⟩ | ⟨n, hfs, hfail⟩ | ⟨n, hfd, hfail⟩
    · refine ⟨"Invalid IP range/subnet", ?_⟩
      simp only [parse_range, hfs, hfd]
    · simp only [parse_range, hfs]
      rcases hfail with hu8 | ⟨p, hu8, hp⟩ | hip
      · rw [hu8]
        exact ⟨_, rfl⟩
      · rw [hu8]
        cases hip : parse_ipv4 (a.take n) with
        | none => exact ⟨_, rfl⟩
        | some addr =>
          refine ⟨"Invalid IP subnet prefix", ?_⟩
          simp [range_try_from_subnet, subnet_try_from, hp]
      · cases hu8 : parse_u8 (a.drop (n + 1)) with
        | none => exact ⟨_, rfl⟩
        | some p =>
          rw [hip]
          exact ⟨_, rfl⟩
    · cases hfs : find_char '/' a with
      | none =>
        simp only [parse_range, hfs, hfd]
        rcases hfail with hl | hr | ⟨sv, ev, hl, hr, hlt⟩
        · rw [hl]
          exact ⟨_, rfl⟩
        · cases hl : parse_ipv4 (rust_trim (a.take n)) with
          | none => exact ⟨_, rfl⟩
          | some sv =>
            rw [hr]
            exact ⟨_, rfl⟩
        · rw [hl, hr]
          refine ⟨"Invalid Range", ?_⟩
          show (if sv > ev then (Except.error "Invalid Range" : Except String Ipv4Range)
            else Except.ok { start := sv, end_ := ev }) = Except.error "Invalid Range"
          rw [if_pos (by omega)]
      | some m =>
        have hget_dash : a.get? n = some '-' := find_char_get a '-' n hfd
        have hget_slash : a.get? m = some '/' := find_char_get a '/' m hfs
        have hnm : n ≠ m := by
          intro he
          rw [he, hget_slash] at hget_dash
          simp at hget_dash
        simp only [parse_range, hfs]
        rcases Nat.lt_or_ge n m with hlt | hge
        · have hdm : '-' ∈ a.take m := mem_take_of_get a n m '-' hget_dash hlt
          cases hu8 : parse_u8 (a.drop (m + 1)) with
          | none => exact ⟨_, rfl⟩
          | some p =>
            cases hip : parse_ipv4 (a.take m) with
            | none => exact ⟨_, rfl⟩
            | some addr =>
              exfalso
              rcases parse_ipv4_chars _ _ hip '-' hdm with hd | hd
              · simp at hd
              · simp at hd
        · have hge2 : m + 1 ≤ n := by omega
          have hdm : '-' ∈ a.drop (m + 1) := mem_drop_of_get a n (m + 1) '-' hget_dash hge2
          cases hu8 : parse_u8 (a.drop (m + 1)) with
          | none => exact ⟨_, rfl⟩
          | some p =>
            exfalso
            rcases parse_u8_chars _ _ hu8 '-' hdm with hd | hd
            · simp at hd
            · simp at hd
  · -- the success characterization
    intro r hok
    cases hfs : find_char '/' a with
    | some n =>
      simp only [parse_range, hfs] at hok
      cases hu8 : parse_u8 (a.drop (n + 1)) with
      | none => rw [hu8] at hok; cases hok
      | some p =>
        rw [hu8] at hok
        cases hip : parse_ipv4 (a.take n) with
        | none => rw [hip] at hok; cases hok
        | some addr =>
          rw [hip] at hok
          exact Or.inl ⟨n, p, addr, rfl, hu8, hip, hok⟩
    | none =>
      simp only [parse_range, hfs] at hok
      cases hfd : find_char '-' a with
      | none => simp only [hfd] at hok; cases hok
      | some n =>
        simp only [hfd] at hok
        cases hl : parse_ipv4 (rust_trim (a.take n)) with
        | none => rw [hl] at hok; cases hok
        | some sv =>
          rw [hl] at hok
          cases hr : parse_ipv4 (rust_trim (a.drop (n + 1))) with
          | none => rw [hr] at hok; cases hok
          | some ev =>
            rw [hr] at hok
            exact Or.inr ⟨n, sv, ev, rfl, hl, hr, hok⟩

theorem c5_parse_range_characterization_witness :
    (∃ msg, parse_range "127.0.0.1".toList = .error msg) ∧
    parse_range "192.168.1.0-192.168.0.255".toList = .error "Invalid Range" :=
  ⟨(c5_parse_range_characterization "127.0.0.1".toList).1.1.mpr
      (Or.inl ⟨by rfl, by rfl⟩),
    (c5_parse_range_characterization "127.0.0.1".toList).2⟩

end Ripcal
